import Mathlib

set_option autoImplicit false
set_option linter.unusedVariables false

/-! Shallow embedding of `src/byte_range.rs` (crate `range_header`): parsing of
the HTTP `Range` request header (bytes unit only, RFC 7233) into a list of
byte ranges of a resource of known total size.

The normalizer (`ByteRange::parse`, the match arms over `Rule::from_to`,
`Rule::from_to_all`, `Rule::last`) is embedded from the source file.  The pest
grammar file `byte_range.pest` is referenced by the source but is not part of
the sources available here, so the tokenizer stage is modelled from the
specification's grammar (see `tokenize` below).  Rust `u64` values are
embedded as `Nat`; `str::parse::<u64>()` is embedded as a fallible conversion
that rejects values `≥ 2 ^ 64`, and the source's `.unwrap()` panics are
embedded as the `none` case of an outer `Option` layer. -/

/-- Number of values of a Rust `u64`: a numeral parses iff it is `< U64_BOUND`. -/
def U64_BOUND : Nat := 2 ^ 64

/-- Embeds `struct ByteRange { offset: u64, length: u64 }`. -/
structure ByteRange where
  offset : Nat
  length : Nat
deriving DecidableEq

/-- Lexical tokens of one range-spec segment: a maximal run of ASCII decimal
digits, or a hyphen.  Whitespace separates tokens and is discarded. -/
inductive Tok where
  | digits (ds : List Char)
  | dash
deriving DecidableEq

/-- Range-spec nodes as produced by the grammar stage, still carrying the raw
digit strings: as in the source, numeral conversion happens in the normalizer
(`spec.as_str().parse().unwrap()`). -/
inductive RawSpec where
  | from_to (ds : List Char)
  | from_to_all (a b : List Char)
  | last (ds : List Char)
deriving DecidableEq

/-- Numeric value of a digit string, most significant digit first. -/
def digitsToNat (ds : List Char) : Nat :=
  ds.foldl (fun acc c => acc * 10 + (c.toNat - 48)) 0

/-- Embeds `str::parse::<u64>()` on an all-digit string: succeeds exactly when
the value fits in an unsigned 64-bit integer. -/
def digitsToU64 (ds : List Char) : Option Nat :=
  if digitsToNat ds < U64_BOUND then some (digitsToNat ds) else none

/-- Modelled from the spec: the grammar file `byte_range.pest` is missing from
the sources; the spec tolerates "internal whitespace around digits and around
the separating hyphen/commas". -/
def isWs (c : Char) : Bool := c == ' ' || c == '\t'

/-- Pending digit run `cur` is closed off into a `Tok.digits` token (tokens are
accumulated in reverse). -/
def flushDigits (acc : List Tok) (cur : List Char) : List Tok :=
  if cur = [] then acc else Tok.digits cur :: acc

/-- Modelled from the spec: lexer for one range-spec segment.  Whitespace is
skipped (it terminates a digit run), hyphens and maximal digit runs become
tokens, and any other character fails the whole segment. -/
def lexAux : List Char → List Tok → List Char → Option (List Tok)
  | [], acc, cur => some ((flushDigits acc cur).reverse)
  | c :: cs, acc, cur =>
    if isWs c then lexAux cs (flushDigits acc cur) []
    else if c == '-' then lexAux cs (Tok.dash :: flushDigits acc cur) []
    else if c.isDigit then lexAux cs acc (cur ++ [c])
    else none

/-- Modelled from the spec: lex one comma-separated segment into tokens. -/
def lexSpec (seg : List Char) : Option (List Tok) :=
  lexAux seg [] []

/-- Modelled from the spec: the three range-spec productions over the token
list of one segment, `from_to_all := digits "-" digits`,
`from_to := digits "-"`, `last := "-" digits`. -/
def segSpec : List Tok → Option RawSpec
  | [Tok.digits a, Tok.dash, Tok.digits b] => some (RawSpec.from_to_all a b)
  | [Tok.digits a, Tok.dash] => some (RawSpec.from_to a)
  | [Tok.dash, Tok.digits ds] => some (RawSpec.last ds)
  | _ => none

/-- Modelled from the spec: "a numeral too large to fit (overflow) ... causes
that spec's branch not to match"; every numeral of the spec node must fit a
`u64` for the grammar to accept it. -/
def specOk : RawSpec → Bool
  | RawSpec.from_to ds => decide (digitsToNat ds < U64_BOUND)
  | RawSpec.from_to_all a b =>
      decide (digitsToNat a < U64_BOUND) && decide (digitsToNat b < U64_BOUND)
  | RawSpec.last ds => decide (digitsToNat ds < U64_BOUND)

/-- Modelled from the spec: parse one comma-separated segment.  `none` is a
grammar failure of the whole header; `some none` is a skippable empty segment
("an empty spec between two commas (`,,`) or a spec consisting only of
whitespace is silently skippable"); `some (some rs)` is one range-spec. -/
def parseSeg (seg : List Char) : Option (Option RawSpec) :=
  match lexSpec seg with
  | none => none
  | some [] => some none
  | some (t :: ts) =>
    match segSpec (t :: ts) with
    | none => none
    | some rs => if specOk rs then some (some rs) else none

/-- Splits a character list on commas (a comma can occur in no range-spec, so
this agrees with the spec list production `range_spec (sep range_spec)*`). -/
def splitComma : List Char → List (List Char)
  | [] => [[]]
  | c :: cs =>
    if c == ',' then [] :: splitComma cs
    else
      match splitComma cs with
      | [] => [[c]]
      | s :: rest => (c :: s) :: rest

/-- Modelled from the spec: parse every segment; any failing segment is an
overall grammar failure, empty segments are skipped. -/
def parseSegs : List (List Char) → Option (List RawSpec)
  | [] => some []
  | seg :: rest =>
    match parseSeg seg with
    | none => none
    | some none => parseSegs rest
    | some (some rs) => (parseSegs rest).map (fun l => rs :: l)

/-- Modelled from the spec: the missing `byte_range.pest` grammar,
`byte_ranges_specifier := "bytes=" spec_list EOI`, producing the ordered
sequence of range-spec nodes or an overall failure. -/
def tokenize (header : String) : Option (List RawSpec) :=
  let cs := header.toList
  if cs.take 6 = "bytes=".toList then parseSegs (splitComma (cs.drop 6))
  else none

/-- Embeds the `Rule::from_to` match arm: emit `{offset, full_size - offset}`
when `offset < full_size`, else drop. -/
def normFromTo (full_size offset : Nat) : Option ByteRange :=
  if offset < full_size then some ⟨offset, full_size - offset⟩ else none

/-- Embeds the `Rule::from_to_all` match arm: drop when `begin >= full_size`,
clamp `end` to `full_size - 1`, drop when `begin > end`, else emit
`{begin, end - begin + 1}`. -/
def normFromToAll (full_size b e : Nat) : Option ByteRange :=
  if full_size ≤ b then none
  else
    let e2 := if full_size ≤ e then full_size - 1 else e
    if e2 < b then none
    else some ⟨b, e2 - b + 1⟩

/-- Embeds the `Rule::last` match arm: clamp `length` to `full_size` and emit
`{full_size - length, length}` unconditionally. -/
def normLast (full_size len : Nat) : ByteRange :=
  ⟨full_size - min len full_size, min len full_size⟩

/-- One iteration of the normalizer loop on a spec node.  The outer `Option`
embeds the `.parse().unwrap()` panic possibility (`none` = panic); the inner
`Option` is emit-or-drop. -/
def normSpecU (full_size : Nat) : RawSpec → Option (Option ByteRange)
  | RawSpec.from_to ds =>
      (digitsToU64 ds).map (fun offset => normFromTo full_size offset)
  | RawSpec.from_to_all a b =>
      (digitsToU64 a).bind (fun x =>
        (digitsToU64 b).map (fun y => normFromToAll full_size x y))
  | RawSpec.last ds =>
      (digitsToU64 ds).map (fun len => some (normLast full_size len))

/-- The contribution of one spec node to the output, when no panic occurs. -/
def normSpec (full_size : Nat) (rs : RawSpec) : Option ByteRange :=
  match normSpecU full_size rs with
  | none => none
  | some o => o

/-- Embeds the normalizer loop of `ByteRange::parse`: process specs in order,
pushing each emitted range; `none` when some `.unwrap()` would panic. -/
def runSpecs (full_size : Nat) : List RawSpec → Option (List ByteRange)
  | [] => some []
  | rs :: rest =>
    match normSpecU full_size rs with
    | none => none
    | some none => runSpecs full_size rest
    | some (some r) => (runSpecs full_size rest).map (fun l => r :: l)

/-- Embeds `ByteRange::parse(header, full_size)` with the panic possibility
made explicit: `none` would be a Rust panic, `some l` a normal return. -/
def ByteRange.parseE (header : String) (full_size : Nat) : Option (List ByteRange) :=
  if full_size < 1 then some []
  else
    match tokenize header with
    | none => some []
    | some specs => runSpecs full_size specs

/-- Embeds `ByteRange::parse(header, full_size) -> Vec<ByteRange>`. -/
def ByteRange.parse (header : String) (full_size : Nat) : List ByteRange :=
  (ByteRange.parseE header full_size).getD []

/-- The digit strings carried by a spec node, used to relate lexer tokens to
the overflow check `specOk`. -/
def specDigits : RawSpec → List (List Char)
  | RawSpec.from_to ds => [ds]
  | RawSpec.from_to_all a b => [a, b]
  | RawSpec.last ds => [ds]

example : ByteRange.parse "bytes=10-100" 200 = [⟨10, 91⟩] := by decide
example : ByteRange.parse "bytes=10-" 200 = [⟨10, 190⟩] := by decide
example : ByteRange.parse "bytes=-100" 200 = [⟨100, 100⟩] := by decide
example : ByteRange.parse "invalid input" 200 = [] := by decide
example : ByteRange.parse "bytes=5-4" 10 = [] := by decide
example : ByteRange.parse "bytes=-15" 10 = [⟨0, 10⟩] := by decide
example : ByteRange.parse "bytes=0-2,5-4" 10 = [⟨0, 3⟩] := by decide
example : ByteRange.parse "bytes= 7 " 10 = [] := by decide
example : ByteRange.parse "bytes=   1 -2   ,  4- 5, 7 - 8 , ,," 11 =
    [⟨1, 2⟩, ⟨4, 2⟩, ⟨7, 2⟩] := by decide
example : ByteRange.parse "bytes=0x01-0x02" 10 = [] := by decide
example : ByteRange.parse "bytes=-2 , 7-" 11 = [⟨9, 2⟩, ⟨7, 4⟩] := by decide
example : ByteRange.parse "bytes=" 1000 = [] := by decide
example : ByteRange.parse "bytes= , , ,   " 10 = [] := by decide

/-! Helper lemmas: every spec node produced by the grammar satisfies `specOk`,
hence the normalizer's numeral conversions all succeed and the loop computes a
`filterMap` of the per-spec normalization. -/

theorem parseSeg_specOk {seg : List Char} {rs : RawSpec}
    (h : parseSeg seg = some (some rs)) : specOk rs = true := by
  unfold parseSeg at h
  split at h
  · exact absurd h (by simp)
  · simp at h
  · split at h
    · exact absurd h (by simp)
    · rename_i rs0 hseg
      by_cases hok : specOk rs0 = true
      · simp only [hok, if_true, Option.some.injEq] at h
        cases h
        exact hok
      · simp only [hok] at h
        simp at h

theorem parseSegs_specOk {segs : List (List Char)} {specs : List RawSpec}
    (h : parseSegs segs = some specs) {rs : RawSpec} (hm : rs ∈ specs) :
    specOk rs = true := by
  induction segs generalizing specs with
  | nil =>
    simp only [parseSegs, Option.some.injEq] at h
    subst h
    simp at hm
  | cons seg rest ih =>
    unfold parseSegs at h
    split at h
    · exact absurd h (by simp)
    · exact ih h hm
    · rename_i rs0 hseg
      cases hrest : parseSegs rest with
      | none => rw [hrest] at h; simp at h
      | some l =>
        rw [hrest] at h
        simp only [Option.map_some', Option.some.injEq] at h
        subst h
        rcases List.mem_cons.mp hm with hrs | hrs
        · subst hrs
          exact parseSeg_specOk hseg
        · exact ih hrest hrs

theorem tokenize_specOk {header : String} {specs : List RawSpec}
    (h : tokenize header = some specs) {rs : RawSpec} (hm : rs ∈ specs) :
    specOk rs = true := by
  simp only [tokenize] at h
  split at h
  · exact parseSegs_specOk h hm
  · simp at h

theorem specOk_normSpecU {rs : RawSpec} (h : specOk rs = true) (n : Nat) :
    normSpecU n rs = some (normSpec n rs) := by
  cases rs with
  | from_to ds =>
    simp only [specOk, decide_eq_true_eq] at h
    simp [normSpecU, normSpec, digitsToU64, h]
  | from_to_all a b =>
    simp only [specOk, Bool.and_eq_true, decide_eq_true_eq] at h
    simp [normSpecU, normSpec, digitsToU64, h.1, h.2]
  | last ds =>
    simp only [specOk, decide_eq_true_eq] at h
    simp [normSpecU, normSpec, digitsToU64, h]

theorem runSpecs_eq {l : List RawSpec} (n : Nat)
    (h : ∀ rs ∈ l, specOk rs = true) :
    runSpecs n l = some (l.filterMap (normSpec n)) := by
  induction l with
  | nil => simp [runSpecs]
  | cons rs rest ih =>
    have hok := h rs (List.mem_cons_self rs rest)
    have hrest := ih (fun x hx => h x (List.mem_cons_of_mem rs hx))
    have hn := specOk_normSpecU hok n
    cases ho : normSpec n rs with
    | none =>
      rw [ho] at hn
      simp [runSpecs, hn, hrest, List.filterMap_cons, ho]
    | some r =>
      rw [ho] at hn
      simp [runSpecs, hn, hrest, List.filterMap_cons, ho]

theorem parse_eq_filterMap {header : String} {n : Nat} {specs : List RawSpec}
    (hn : 0 < n) (ht : tokenize header = some specs) :
    ByteRange.parse header n = specs.filterMap (normSpec n) := by
  have h2 := runSpecs_eq n (fun rs hm => tokenize_specOk ht hm)
  have hlt : ¬ n < 1 := by omega
  simp [ByteRange.parse, ByteRange.parseE, hlt, ht, h2]

/-! More helper lemmas: closed form of the `from_to_all` clamping, grammar
failure propagation, traceability of digit tokens, and the shape of every
range in the output. -/

theorem normFromToAll_eq (n b e : Nat) :
    normFromToAll n b e =
      if n ≤ b then none
      else if min e (n - 1) < b then none
      else some ⟨b, min e (n - 1) - b + 1⟩ := by
  unfold normFromToAll
  rcases le_or_lt n b with h | h
  · simp [h]
  · have hnb : ¬ n ≤ b := by omega
    rcases le_or_lt n e with h2 | h2
    · have hmin : min e (n - 1) = n - 1 := min_eq_right (by omega)
      simp only [hnb, if_false, h2, if_true, hmin]
    · have hne : ¬ n ≤ e := by omega
      have hmin : min e (n - 1) = e := min_eq_left (by omega)
      simp only [hnb, if_false, hne, hmin]

theorem parse_of_tokenize_none {header : String} (h : tokenize header = none)
    (n : Nat) : ByteRange.parse header n = [] := by
  unfold ByteRange.parse ByteRange.parseE
  split
  · rfl
  · rw [h]
    rfl

theorem parseSegs_none {segs : List (List Char)} {seg : List Char}
    (hm : seg ∈ segs) (h : parseSeg seg = none) : parseSegs segs = none := by
  induction segs with
  | nil => simp at hm
  | cons s rest ih =>
    rcases List.mem_cons.mp hm with rfl | hm2
    · simp [parseSegs, h]
    · unfold parseSegs
      split
      · rfl
      · exact ih hm2
      · rw [ih hm2]; rfl

theorem segSpec_digits {toks : List Tok} {rs : RawSpec} {ds : List Char}
    (h : segSpec toks = some rs) (hm : Tok.digits ds ∈ toks) :
    ds ∈ specDigits rs := by
  unfold segSpec at h
  split at h
  · injection h with h
    subst h
    simp only [List.mem_cons, List.not_mem_nil, or_false] at hm
    rcases hm with h1 | h1 | h1
    · injection h1 with h1; subst h1; simp [specDigits]
    · exact absurd h1 (by simp)
    · injection h1 with h1; subst h1; simp [specDigits]
  · injection h with h
    subst h
    simp only [List.mem_cons, List.not_mem_nil, or_false] at hm
    rcases hm with h1 | h1
    · injection h1 with h1; subst h1; simp [specDigits]
    · exact absurd h1 (by simp)
  · injection h with h
    subst h
    simp only [List.mem_cons, List.not_mem_nil, or_false] at hm
    rcases hm with h1 | h1
    · exact absurd h1 (by simp)
    · injection h1 with h1; subst h1; simp [specDigits]
  · exact absurd h (by simp)

theorem specOk_overflow {rs : RawSpec} {ds : List Char}
    (hm : ds ∈ specDigits rs) (hov : U64_BOUND ≤ digitsToNat ds) :
    specOk rs = false := by
  cases rs with
  | from_to a =>
    simp only [specDigits, List.mem_singleton] at hm
    subst hm
    simp only [specOk, decide_eq_false_iff_not]
    omega
  | from_to_all a b =>
    simp only [specDigits, List.mem_cons, List.not_mem_nil, or_false] at hm
    rcases hm with rfl | rfl
    · have hna : ¬ digitsToNat ds < U64_BOUND := by omega
      simp [specOk, hna]
    · have hnb : ¬ digitsToNat ds < U64_BOUND := by omega
      simp [specOk, hnb]
  | last a =>
    simp only [specDigits, List.mem_singleton] at hm
    subst hm
    simp only [specOk, decide_eq_false_iff_not]
    omega

theorem parseSeg_overflow {seg : List Char} {toks : List Tok} {ds : List Char}
    (hl : lexSpec seg = some toks) (hm : Tok.digits ds ∈ toks)
    (hov : U64_BOUND ≤ digitsToNat ds) : parseSeg seg = none := by
  unfold parseSeg
  rw [hl]
  cases toks with
  | nil => simp at hm
  | cons t ts =>
    cases hs : segSpec (t :: ts) with
    | none => simp [hs]
    | some rs =>
      have hd := segSpec_digits hs hm
      simp [hs, specOk_overflow hd hov]

theorem lexAux_badchar {cs : List Char} {c : Char} (hm : c ∈ cs)
    (h1 : isWs c = false) (h2 : (c == '-') = false) (h3 : c.isDigit = false) :
    ∀ acc cur, lexAux cs acc cur = none := by
  induction cs with
  | nil => simp at hm
  | cons a rest ih =>
    intro acc cur
    unfold lexAux
    rcases List.mem_cons.mp hm with rfl | hm2
    · simp [h1, h2, h3]
    · split
      · exact ih hm2 _ _
      · split
        · exact ih hm2 _ _
        · split
          · exact ih hm2 _ _
          · rfl

theorem normSpec_shape {n : Nat} {rs : RawSpec} {r : ByteRange}
    (h : normSpec n rs = some r) :
    r.offset + r.length ≤ n ∧ (0 < r.length → r.offset < n) ∧
      (r.length = 0 → r.offset = n) := by
  cases rs with
  | from_to ds =>
    cases hd : digitsToU64 ds with
    | none => simp [normSpec, normSpecU, hd] at h
    | some o =>
      simp only [normSpec, normSpecU, hd, Option.map_some'] at h
      unfold normFromTo at h
      split at h
      · rename_i hlt
        injection h with h
        subst h
        refine ⟨?_, fun _ => ?_, fun h0 => ?_⟩
        · show o + (n - o) ≤ n
          omega
        · show o < n
          exact hlt
        · have h02 : n - o = 0 := h0
          show o = n
          omega
      · exact absurd h (by simp)
  | from_to_all a b =>
    cases hd1 : digitsToU64 a with
    | none => simp [normSpec, normSpecU, hd1] at h
    | some x =>
      cases hd2 : digitsToU64 b with
      | none => simp [normSpec, normSpecU, hd1, hd2] at h
      | some y =>
        simp only [normSpec, normSpecU, hd1, hd2, Option.some_bind,
          Option.map_some'] at h
        rw [normFromToAll_eq] at h
        split at h
        · exact absurd h (by simp)
        · split at h
          · exact absurd h (by simp)
          · rename_i hb hcl
            injection h with h
            subst h
            have hmle : min y (n - 1) ≤ n - 1 := min_le_right _ _
            refine ⟨?_, fun _ => ?_, fun h0 => ?_⟩
            · show x + (min y (n - 1) - x + 1) ≤ n
              omega
            · show x < n
              omega
            · have h02 : min y (n - 1) - x + 1 = 0 := h0
              show x = n
              omega
  | last ds =>
    cases hd : digitsToU64 ds with
    | none => simp [normSpec, normSpecU, hd] at h
    | some len =>
      simp only [normSpec, normSpecU, hd, Option.map_some'] at h
      injection h with h
      subst h
      have hle : min len n ≤ n := min_le_right _ _
      refine ⟨?_, fun hp => ?_, fun h0 => ?_⟩
      · show n - min len n + min len n ≤ n
        omega
      · have hp2 : 0 < min len n := hp
        show n - min len n < n
        omega
      · have h02 : min len n = 0 := h0
        show n - min len n = n
        omega

theorem parse_mem_shape {header : String} {n : Nat} {r : ByteRange}
    (hm : r ∈ ByteRange.parse header n) :
    r.offset + r.length ≤ n ∧ (0 < r.length → r.offset < n) ∧
      (r.length = 0 → r.offset = n) := by
  rcases Nat.eq_zero_or_pos n with rfl | hn
  · rw [show ByteRange.parse header 0 = [] from rfl] at hm
    simp at hm
  · cases ht : tokenize header with
    | none => rw [parse_of_tokenize_none ht n] at hm; simp at hm
    | some specs =>
      rw [parse_eq_filterMap hn ht] at hm
      obtain ⟨rs, hrs, hnorm⟩ := List.mem_filterMap.mp hm
      exact normSpec_shape hnorm

/-! The claims. -/

/-- C1: for every header string and every total size, `ByteRange::parse`
returns a defined (possibly empty) list of ranges and never panics: the
panic-explicit embedding `ByteRange.parseE` always returns `some`, however
malformed the header is (under the grammar, overflowing numerals are a
grammar failure, so the numeral unwraps inside the normalizer always
succeed). -/
theorem C1_parse_total (header : String) (n : Nat) :
    (ByteRange.parseE header n).isSome = true := by
  unfold ByteRange.parseE
  split
  · rfl
  · cases ht : tokenize header with
    | none => rfl
    | some specs =>
      show (runSpecs n specs).isSome = true
      rw [runSpecs_eq n (fun rs hm => tokenize_specOk ht hm)]
      rfl

/-- C2: normalization of a `FromToAll(begin, end)` node against a positive
total size: the numeral conversions succeed (no panic), the node is dropped
when `begin ≥ total_size`, or when after clamping the end to
`min end (total_size - 1)` the begin exceeds it; otherwise it contributes
exactly one range with offset `begin` and length `clampedEnd - begin + 1`. -/
theorem C2_from_to_all_normalization (n : Nat) (a bs : List Char) (b e : Nat)
    (hn : 0 < n) (ha : digitsToU64 a = some b) (hb : digitsToU64 bs = some e) :
    normSpecU n (RawSpec.from_to_all a bs) =
      some (if n ≤ b then none
            else if min e (n - 1) < b then none
            else some ⟨b, min e (n - 1) - b + 1⟩) := by
  simp only [normSpecU, ha, hb, Option.some_bind, Option.map_some',
    Option.some.injEq]
  exact normFromToAll_eq n b e

/-- C2 witness: `FromToAll(10, 100)` against total size `200` yields the
single range `{offset 10, length 91}`. -/
theorem C2_witness :
    normSpecU 200 (RawSpec.from_to_all ['1', '0'] ['1', '0', '0']) =
      some (some ⟨10, 91⟩) := by
  have h := C2_from_to_all_normalization 200 ['1', '0'] ['1', '0', '0'] 10 100
    (by decide) (by decide) (by decide)
  rw [h]
  decide

/-- C3: normalization of a `Last(len)` node against a positive total size
never drops the node: it contributes exactly one range with length
`min len total_size` and offset `total_size - min len total_size`. -/
theorem C3_last_normalization (n : Nat) (ds : List Char) (len : Nat)
    (hn : 0 < n) (hds : digitsToU64 ds = some len) :
    normSpecU n (RawSpec.last ds) =
      some (some ⟨n - min len n, min len n⟩) := by
  simp [normSpecU, hds, normLast]

/-- C3 witness: `Last(15)` against total size `10` yields the whole resource
`{offset 0, length 10}`. -/
theorem C3_witness :
    normSpecU 10 (RawSpec.last ['1', '5']) = some (some ⟨0, 10⟩) := by
  have h := C3_last_normalization 10 ['1', '5'] 15 (by decide) (by decide)
  rw [h]
  decide

/-- C4: normalization of a `FromTo(offset)` node against a positive total
size: dropped when `offset ≥ total_size`, otherwise exactly one range with
that offset and length `total_size - offset`. -/
theorem C4_from_to_normalization (n : Nat) (ds : List Char) (o : Nat)
    (hn : 0 < n) (hds : digitsToU64 ds = some o) :
    normSpecU n (RawSpec.from_to ds) =
      some (if o < n then some ⟨o, n - o⟩ else none) := by
  simp [normSpecU, hds, normFromTo]

/-- C4 witness: `FromTo(10)` against total size `200` yields
`{offset 10, length 190}`. -/
theorem C4_witness :
    normSpecU 200 (RawSpec.from_to ['1', '0']) = some (some ⟨10, 190⟩) := by
  have h := C4_from_to_normalization 200 ['1', '0'] 10 (by decide) (by decide)
  rw [h]
  decide

/-- C5 counterexample: the header `bytes=-0` (a suffix spec with suffix
length `0`) against total size `10` produces the degenerate range
`{offset 10, length 0}`, which violates `offset < total_size` and the strict
positivity of `length`. -/
theorem C5_counterexample :
    ¬ (∀ r ∈ ByteRange.parse "bytes=-0" 10,
        r.offset < 10 ∧ 0 < r.length ∧ r.offset + r.length ≤ 10) := by
  intro h
  have hr := h ⟨10, 0⟩ (by decide)
  exact absurd hr.1 (by decide)

/-- C5 amended: every range returned by `ByteRange::parse` satisfies
`offset + length ≤ total_size`; `offset < total_size` and `0 < length` hold
for every range except the degenerate output of a `-0` suffix spec, which is
exactly the case `length = 0`, where instead `offset = total_size`. -/
theorem C5_invariants_amended (header : String) (n : Nat) (r : ByteRange)
    (hm : r ∈ ByteRange.parse header n) :
    r.offset + r.length ≤ n ∧ (0 < r.length → r.offset < n) ∧
      (r.length = 0 → r.offset = n) :=
  parse_mem_shape hm

/-- C5 witness: the single range parsed from `bytes=10-100` against total
size `200` satisfies the amended invariants. -/
theorem C5_witness :
    (⟨10, 91⟩ : ByteRange).offset + (⟨10, 91⟩ : ByteRange).length ≤ 200 ∧
      (0 < (⟨10, 91⟩ : ByteRange).length → (⟨10, 91⟩ : ByteRange).offset < 200) ∧
      ((⟨10, 91⟩ : ByteRange).length = 0 → (⟨10, 91⟩ : ByteRange).offset = 200) :=
  C5_invariants_amended "bytes=10-100" 200 ⟨10, 91⟩ (by decide)

/-- C6: against a zero total size the parser returns the empty list for every
header, valid or not, by the `full_size < 1` guard. -/
theorem C6_zero_total (header : String) : ByteRange.parse header 0 = [] := rfl

/-- C7: grammar-level rejection is total.  First, a header one of whose
comma-separated segments fails to parse yields the empty list for every total
size.  Second, a segment that lexes to tokens containing a digit run whose
value overflows a `u64` fails to parse.  Third, a segment containing any
character that is not whitespace, a hyphen, or an ASCII digit fails to lex. -/
theorem C7_overflow_invalid (header : String) (n : Nat) :
    (∀ seg, seg ∈ splitComma (header.toList.drop 6) → parseSeg seg = none →
      ByteRange.parse header n = []) ∧
    (∀ seg toks ds, lexSpec seg = some toks → Tok.digits ds ∈ toks →
      U64_BOUND ≤ digitsToNat ds → parseSeg seg = none) ∧
    (∀ seg c, c ∈ seg → isWs c = false → (c == '-') = false →
      c.isDigit = false → lexSpec seg = none) := by
  refine ⟨?_, ?_, ?_⟩
  · intro seg hm hfail
    by_cases hp : header.toList.take 6 = "bytes=".toList
    · have ht : tokenize header = none := by
        simp only [tokenize, hp, if_true]
        exact parseSegs_none hm hfail
      exact parse_of_tokenize_none ht n
    · have ht : tokenize header = none := by
        simp only [tokenize, hp, if_false]
      exact parse_of_tokenize_none ht n
  · intro seg toks ds hl hm hov
    exact parseSeg_overflow hl hm hov
  · intro seg c hm h1 h2 h3
    exact lexAux_badchar hm h1 h2 h3 [] []

/-- C7 witness: the header `bytes=18446744073709551616-` (the numeral is
`2 ^ 64`, one past the largest `u64`) parses to the empty list against total
size `100`, and the header `bytes=0x01-0x02` fails to lex at the letter x. -/
theorem C7_witness :
    ByteRange.parse "bytes=18446744073709551616-" 100 = [] ∧
      lexSpec ('0' :: 'x' :: ['0', '1']) = none := by
  constructor
  · exact (C7_overflow_invalid "bytes=18446744073709551616-" 100).1
      ("18446744073709551616-".toList) (by decide) (by decide)
  · exact (C7_overflow_invalid "bytes=0x01-0x02" 10).2.2
      ('0' :: 'x' :: ['0', '1']) 'x' (by decide) (by decide) (by decide)
      (by decide)

/-- C8: syntactic failure is all-or-nothing while semantic dropping is
per-spec: a header the grammar rejects parses to the empty list, and in a
header the grammar accepts, one semantically dropped spec leaves exactly the
contributions of the specs before and after it. -/
theorem C8_failure_granularity (header : String) (n : Nat) :
    (tokenize header = none → ByteRange.parse header n = []) ∧
    (∀ s1 bad s2, 0 < n → tokenize header = some (s1 ++ bad :: s2) →
      normSpec n bad = none →
      ByteRange.parse header n =
        s1.filterMap (normSpec n) ++ s2.filterMap (normSpec n)) := by
  constructor
  · intro h
    exact parse_of_tokenize_none h n
  · intro s1 bad s2 hn ht hbad
    rw [parse_eq_filterMap hn ht]
    simp [List.filterMap_append, List.filterMap_cons, hbad]

/-- C8 witness: in `bytes=0-2,5-4` against total size `10` the inverted
second spec is dropped while the first one survives. -/
theorem C8_witness :
    ByteRange.parse "bytes=0-2,5-4" 10 =
      List.filterMap (normSpec 10) [RawSpec.from_to_all ['0'] ['2']] ++
        List.filterMap (normSpec 10) [] :=
  (C8_failure_granularity "bytes=0-2,5-4" 10).2
    [RawSpec.from_to_all ['0'] ['2']] (RawSpec.from_to_all ['5'] ['4']) []
    (by decide) (by decide) (by decide)

/-- C9: for a grammatically valid header the output is exactly the in-order
`filterMap` of per-spec normalization over the parsed spec nodes: surviving
specs appear in header order, one output element per surviving spec, with no
reordering, merging, or deduplication. -/
theorem C9_order_preserved (header : String) (n : Nat) (specs : List RawSpec)
    (hn : 0 < n) (ht : tokenize header = some specs) :
    ByteRange.parse header n = specs.filterMap (normSpec n) :=
  parse_eq_filterMap hn ht

/-- C9 witness: `bytes=500-600,601-999` against total size `10000` yields the
two ranges in header order. -/
theorem C9_witness :
    ByteRange.parse "bytes=500-600,601-999" 10000 =
      List.filterMap (normSpec 10000)
        [RawSpec.from_to_all ['5', '0', '0'] ['6', '0', '0'],
          RawSpec.from_to_all ['6', '0', '1'] ['9', '9', '9']] :=
  C9_order_preserved "bytes=500-600,601-999" 10000
    [RawSpec.from_to_all ['5', '0', '0'] ['6', '0', '0'],
      RawSpec.from_to_all ['6', '0', '1'] ['9', '9', '9']]
    (by decide) (by decide)

/-- C10 counterexample: the degenerate range `{offset 10, length 0}` emitted
by `parse "bytes=-0" 10` is not reproduced by re-normalizing
`FromToAll(offset, offset + length - 1)` against the same total size: that
spec is dropped. -/
theorem C10_counterexample :
    (⟨10, 0⟩ : ByteRange) ∈ ByteRange.parse "bytes=-0" 10 ∧
      normFromToAll 10 10 (10 + 0 - 1) ≠ some ⟨10, 0⟩ := by
  constructor
  · decide
  · decide

/-- C10 amended: for every range emitted by `ByteRange::parse` whose length
is positive (every range except the degenerate output of a `-0` suffix
spec), normalizing `FromToAll(offset, offset + length - 1)` against the same
total size emits exactly that range unchanged. -/
theorem C10_idempotent_amended (header : String) (n : Nat) (r : ByteRange)
    (hm : r ∈ ByteRange.parse header n) (hpos : 0 < r.length) :
    normFromToAll n r.offset (r.offset + r.length - 1) = some r := by
  obtain ⟨h1, h2, h3⟩ := parse_mem_shape hm
  have ho := h2 hpos
  obtain ⟨o, l⟩ := r
  have hl : 0 < l := hpos
  have hon : o < n := ho
  have hsum : o + l ≤ n := h1
  rw [normFromToAll_eq]
  have hne : ¬ n ≤ o := by omega
  have hmin : min (o + l - 1) (n - 1) = o + l - 1 := min_eq_left (by omega)
  rw [if_neg hne, hmin, if_neg (by omega : ¬ o + l - 1 < o)]
  have hlen : o + l - 1 - o + 1 = l := by omega
  rw [hlen]

/-- C10 witness: the range `{offset 10, length 91}` emitted by
`parse "bytes=10-100" 200` re-normalizes to itself. -/
theorem C10_witness :
    normFromToAll 200 10 (10 + 91 - 1) = some ⟨10, 91⟩ :=
  C10_idempotent_amended "bytes=10-100" 200 ⟨10, 91⟩ (by decide) (by decide)
